import Mathlib

/-!
Verification development for the DataGABA real-time trade ingestion and
correlation pipeline.  The definitions below are shallow embeddings of the
TypeScript sources:

* the bounded dedup store used by the websocket and REST ingestion paths
  (`storeUserTradesRealtime.ts`, in-memory dedupe blocks and the
  `MAX_SEEN_TX` prune);
* `sanitizeFileComponent` (`storeUserTradesRealtime.ts`);
* the correlation / merge engine `mergeTrades` of the trade matcher
  (window collection, fallback widening, snapshot partitioning, aggregate
  statistics, raw-list retention);
* the reconnect backoff of the websocket connectors;
* the inactivity promotion scheduler (`uploadSlugFileToR2` and
  `checkAndUploadInactiveSlugs`).

Machine numbers (JS doubles holding millisecond timestamps and prices) are
modelled as `Int` and `ℚ`.  JavaScript `Map` objects are modelled as
insertion-ordered association lists, and the stable `Array.prototype.sort`
is modelled as a stable insertion sort.
-/

namespace DataGABA

/-- Source tag of a logged event (the `src` field of an `EventRecord`). -/
inductive Src where
  | market_ws
  | rest_poll
  | onchain
  | user_ws
deriving DecidableEq, Repr

/-- A line of the per-market `events.jsonl` log, as consumed by the merge
engine.  Optional payload fields that the merge engine reads are modelled
explicitly; fields it never reads are omitted. -/
structure EventRecord where
  t : Int
  recv : Int
  src : Src
  type : String := ""
  slug : Option String := none
  cid : Option String := none
  aid : Option String := none
  tx : Option String := none
  id : Option String := none
  endpoint : Option String := none
  price : Option ℚ := none
  size : Option ℚ := none
  usdc : Option ℚ := none
  side : Option String := none
  outcome : Option String := none
  asset : Option String := none
  bestBid : Option ℚ := none
  bestAsk : Option ℚ := none
  mid : Option ℚ := none
  spread : Option ℚ := none
deriving DecidableEq, Repr

/-! ## Bounded dedup store

Embeds the in-memory dedupe of `connectUserWs`
(`storeUserTradesRealtime.ts` lines 1285-1293; the same block appears in
`connectMarketWs` and as the batch prune of `upsertTrades` and
`appendRestTradesUnified`): a membership object `seenTxSet` plus an
insertion-order array `seenTxOrder`; after pushing a fresh key, when the
order array exceeds `MAX_SEEN_TX` the oldest `length - MAX_SEEN_TX`
entries are spliced off and deleted from the set. -/

/-- `MAX_SEEN_TX` of `storeUserTradesRealtime.ts` line 65. -/
def MAX_SEEN_TX : Nat := 10000

/-- The pair of `seenTxSet` (membership) and `seenTxOrder` (insertion
order) kept by the realtime store. -/
structure DedupState where
  seenTxSet : List String
  seenTxOrder : List String
deriving DecidableEq, Repr

/-- The empty dedup store. -/
def emptyDedup : DedupState := ⟨[], []⟩

/-- One dedupe step: reject if the key is resident, otherwise record it and
prune the oldest overflow entries, exactly as in the source block. Returns
whether the event was accepted together with the new state. -/
def checkAndInsert (cap : Nat) (key : String) (s : DedupState) : Bool × DedupState :=
  if key ∈ s.seenTxSet then
    (false, s)
  else
    let set := key :: s.seenTxSet
    let order := s.seenTxOrder ++ [key]
    if order.length > cap then
      let removeCount := order.length - cap
      let removed := order.take removeCount
      (true, ⟨set.filter (fun x => decide (x ∉ removed)), order.drop removeCount⟩)
    else
      (true, ⟨set, order⟩)

/-- Sequentially submit a list of keys to the store. -/
def insertAll (cap : Nat) (keys : List String) (s : DedupState) : DedupState :=
  keys.foldl (fun st k => (checkAndInsert cap k st).2) s

/-! ## sanitizeFileComponent

Embeds `sanitizeFileComponent` of `storeUserTradesRealtime.ts` lines
145-153: trim, replace every maximal run of characters outside
`[a-zA-Z0-9._-]` by a single underscore, strip leading underscores, strip
trailing underscores, fall back to `"unknown"`, then `slice(0, 140)`. -/

/-- Character class `[a-zA-Z0-9._-]` of the sanitizing regex. -/
def isSafeChar (c : Char) : Bool :=
  c.isAlpha || c.isDigit || c = '.' || c = '_' || c = '-'

/-- Replace each maximal run of unsafe characters by one underscore
(the regex `replace(/[^a-zA-Z0-9._-]+/g, '_')`).  The boolean argument
records whether the previous character belonged to an unsafe run. -/
def collapseUnsafeAux : Bool → List Char → List Char
  | _, [] => []
  | inRun, c :: rest =>
    if isSafeChar c then c :: collapseUnsafeAux false rest
    else if inRun then collapseUnsafeAux true rest
    else '_' :: collapseUnsafeAux true rest

/-- `replace(/[^a-zA-Z0-9._-]+/g, '_')` on a character list. -/
def collapseUnsafe (cs : List Char) : List Char := collapseUnsafeAux false cs

/-- `replace(/^_+/, '')`. -/
def dropLeadingUnderscores (cs : List Char) : List Char :=
  cs.dropWhile (fun c => decide (c = '_'))

/-- `replace(/_+$/, '')`. -/
def dropTrailingUnderscores (cs : List Char) : List Char :=
  (cs.reverse.dropWhile (fun c => decide (c = '_'))).reverse

/-- Whitespace stripped by `String.prototype.trim` (the ASCII part of the
WhiteSpace/LineTerminator productions). -/
def isJsWhitespace (c : Char) : Bool :=
  c = ' ' || c = '\t' || c = '\n' || c = '\r' || c = '\x0b' || c = '\x0c'

/-- `input.trim()` on a character list. -/
def trimChars (cs : List Char) : List Char :=
  ((cs.dropWhile isJsWhitespace).reverse.dropWhile isJsWhitespace).reverse

/-- The `cleaned` local of `sanitizeFileComponent` (before the fallback and
the final `slice`). -/
def cleanedOf (input : String) : List Char :=
  dropTrailingUnderscores (dropLeadingUnderscores (collapseUnsafe (trimChars input.data)))

/-- `sanitizeFileComponent` of `storeUserTradesRealtime.ts`. -/
def sanitizeFileComponent (input : String) : String :=
  let cleaned := cleanedOf input
  let safe := if cleaned.length > 0 then cleaned else "unknown".data
  String.mk (safe.take 140)

/-! ## Stable sorting

`Array.prototype.sort` with comparator `(a, b) => a.t - b.t` is (per the
ECMAScript specification) a stable ascending sort; a stable sort's output
is uniquely determined by the comparator, so it is modelled by a stable
insertion sort: each element is inserted after all previously placed
elements whose key is less than or equal to its own. -/

/-- Insert `x` after every element `y` of the (sorted) list with `le y x`. -/
def insertLe {α : Type} (le : α → α → Bool) (x : α) : List α → List α
  | [] => [x]
  | y :: ys => if le y x then y :: insertLe le x ys else x :: y :: ys

/-- Stable sort with respect to the boolean comparison `le`. -/
def sortStable {α : Type} (le : α → α → Bool) (l : List α) : List α :=
  l.foldl (fun acc x => insertLe le x acc) []

/-! ## Merge engine (`mergeTrades` of the trade matcher, part_003) -/

/-- `SNAPSHOTS_BEFORE_TRADE` (part_003 line 38). -/
def SNAPSHOTS_BEFORE_TRADE : Nat := 10
/-- `SNAPSHOTS_AFTER_TRADE` (part_003 line 39). -/
def SNAPSHOTS_AFTER_TRADE : Nat := 10
/-- `MARKET_WINDOW_MS` (part_003 line 114). -/
def MARKET_WINDOW_MS : Int := 3000
/-- `MAX_RAW_EVENTS_PER_TRADE` (part_003 line 115). -/
def MAX_RAW_EVENTS_PER_TRADE : Nat := 100

/-- A `MarketSnapshot` (part_003 lines 29-36). -/
structure MarketSnapshot where
  t : Int
  bestBid : Option ℚ
  bestAsk : Option ℚ
  mid : Option ℚ
  spread : Option ℚ
  price : Option ℚ
deriving DecidableEq, Repr

/-- Snapshot projection applied to every window event (part_003 lines 469-476). -/
def toSnapshot (e : EventRecord) : MarketSnapshot :=
  ⟨e.t, e.bestBid, e.bestAsk, e.mid, e.spread, e.price⟩

/-- Result of `calcStats` (part_003 lines 512-518). -/
structure WindowStat where
  min : ℚ
  max : ℚ
  avg : ℚ
deriving DecidableEq, Repr

/-- JavaScript `Math.round` on exact rationals: floor of `q + 1/2`. -/
def jsRound (q : ℚ) : Int := ⌊q + 1 / 2⌋

/-- `calcStats` (part_003 lines 512-518): `Math.min`, `Math.max`, and the
average rounded to four decimal places. -/
def calcStats : List ℚ → Option WindowStat
  | [] => none
  | a :: rest =>
    let mn := rest.foldl min a
    let mx := rest.foldl max a
    let avg := (a :: rest).foldl (fun x y => x + y) 0 / ((a :: rest).length : ℚ)
    some ⟨mn, mx, (jsRound (avg * 10000) : ℚ) / 10000⟩

/-- The `stats` block of a `MarketSummary` (part_003 lines 50-65). -/
structure SummaryStats where
  bidMin : Option ℚ
  bidMax : Option ℚ
  bidAvg : Option ℚ
  askMin : Option ℚ
  askMax : Option ℚ
  askAvg : Option ℚ
  spreadMin : Option ℚ
  spreadMax : Option ℚ
  spreadAvg : Option ℚ
  midMin : Option ℚ
  midMax : Option ℚ
  midAvg : Option ℚ
  priceChangeCount : Nat
  lastTradePriceCount : Nat
deriving DecidableEq, Repr

/-- The `rawDataRef` block of a `MarketSummary` (part_003 lines 66-71). -/
structure RawDataRef where
  eventsFile : String
  firstEventTime : Int
  lastEventTime : Int
deriving DecidableEq, Repr

/-- A `MarketSummary` (part_003 lines 41-72). -/
structure MarketSummary where
  windowMs : Int
  eventCount : Nat
  beforeTrade : Option (List MarketSnapshot)
  afterTrade : Option (List MarketSnapshot)
  atTrade : Option MarketSnapshot
  stats : SummaryStats
  rawDataRef : RawDataRef
deriving DecidableEq, Repr

/-- One retained raw market event of a merged trade (part_003 lines 98-107). -/
structure MarketEventOut where
  t : Int
  type : String
  price : Option ℚ
  bestBid : Option ℚ
  bestAsk : Option ℚ
  mid : Option ℚ
  spread : Option ℚ
  side : Option String
deriving DecidableEq, Repr

/-- Raw-event projection for the retained list (part_003 lines 559-568). -/
def toMarketEventOut (e : EventRecord) : MarketEventOut :=
  ⟨e.t, e.type, e.price, e.bestBid, e.bestAsk, e.mid, e.spread, e.side⟩

/-- The `rest` block of a merged trade (part_003 lines 81-94; `...data`
spread of an unmodelled opaque payload omitted). -/
structure RestInfo where
  price : Option ℚ
  size : Option ℚ
  usdc : Option ℚ
  side : Option String
  outcome : Option String
  asset : Option String
  assetId : Option String
  conditionId : Option String
  id : Option String
  timestamp : Int
  endpoint : String
deriving DecidableEq, Repr

/-- A `MergedTrade` (part_003 lines 74-108). -/
structure MergedTrade where
  tx : String
  slug : String
  timestamp : Int
  timestampMs : Int
  receivedAtMs : Int
  rest : Option RestInfo := none
  marketSummary : Option MarketSummary := none
  marketEvents : Option (List MarketEventOut) := none
deriving DecidableEq, Repr

/-- Stable ascending sort of events by `t` (comparator `(a, b) => a.t - b.t`). -/
def sortByT (l : List EventRecord) : List EventRecord :=
  sortStable (fun a b => decide (a.t ≤ b.t)) l

/-- Stable ascending sort of merged trades by `timestampMs`
(comparator `(a, b) => a.timestampMs - b.timestampMs`, part_003 line 576). -/
def sortByTsMs (l : List MergedTrade) : List MergedTrade :=
  sortStable (fun a b => decide (a.timestampMs ≤ b.timestampMs)) l

/-- Primary window collection (part_003 lines 410-420): market-feed events
with `t` in the inclusive window around the trade time. -/
def primaryWindowEvents (windowMs tradeTime : Int) (marketEvents : List EventRecord) :
    List EventRecord :=
  marketEvents.filter fun e =>
    decide (e.src = Src.market_ws ∧ tradeTime - windowMs ≤ e.t ∧ e.t ≤ tradeTime + windowMs)

/-- The closest-snapshot search of the fallback path (part_003 lines
425-435): first market-feed event attaining the minimal `|t - tradeTime|`
(strict improvement keeps the earlier event), paired with that distance. -/
def closestSnapshot (tradeTime : Int) (events : List EventRecord) :
    Option (EventRecord × Int) :=
  events.foldl
    (fun acc e =>
      if e.src = Src.market_ws then
        let diff := |e.t - tradeTime|
        match acc with
        | none => some (e, diff)
        | some (c, d) => if diff < d then some (e, diff) else some (c, d)
      else acc)
    none

/-- Window collection including the fallback widening (part_003 lines
410-453, the value of `windowEvents` just before the emptiness check of
line 455): if the primary window is empty but the log is not, and the
closest snapshot is within 30 s, re-collect over the widened window around
the closest snapshot bounded by the trade time plus or minus 10 s. -/
def collectWindowEvents (windowMs tradeTime : Int) (marketEvents : List EventRecord) :
    List EventRecord :=
  let windowEvents := primaryWindowEvents windowMs tradeTime marketEvents
  if windowEvents.isEmpty && !marketEvents.isEmpty then
    match closestSnapshot tradeTime marketEvents with
    | some (closestEvent, minDiff) =>
      if minDiff ≤ 30000 then
        let extendedWindowStart := max (closestEvent.t - windowMs) (tradeTime - 10000)
        let extendedWindowEnd := min (closestEvent.t + windowMs) (tradeTime + 10000)
        sortByT (marketEvents.filter fun e =>
          decide (e.src = Src.market_ws ∧ extendedWindowStart ≤ e.t ∧ e.t ≤ extendedWindowEnd))
      else []
    | none => []
  else windowEvents

/-- The sorted window of a trade (the list the loop body works with after
the sort of part_003 line 461). -/
def windowEventsOf (windowMs tradeTime : Int) (marketEvents : List EventRecord) :
    List EventRecord :=
  sortByT (collectWindowEvents windowMs tradeTime marketEvents)

/-- The per-trade body of the market-context loop (part_003 lines 408-573):
skip the trade when no events were collected, otherwise attach the compact
summary and, only when at most `MAX_RAW_EVENTS_PER_TRADE` events were
collected, the raw ordered event list. -/
def attachMarketContext (windowMs : Int) (marketEvents : List EventRecord)
    (trade : MergedTrade) : MergedTrade :=
  let tradeTime := trade.timestampMs
  let pre := collectWindowEvents windowMs tradeTime marketEvents
  if pre.isEmpty then trade
  else
    let windowEvents := sortByT pre
    let eventsBefore := (windowEvents.filter fun e => decide (e.t < tradeTime)).map toSnapshot
    let eventsAfter := (windowEvents.filter fun e => decide (tradeTime < e.t)).map toSnapshot
    let atTrade := ((windowEvents.filter fun e => decide (e.t = tradeTime)).map toSnapshot).getLast?
    let beforeTrade :=
      if eventsBefore.length > 0 then
        some (eventsBefore.drop (eventsBefore.length - SNAPSHOTS_BEFORE_TRADE))
      else none
    let afterTrade :=
      if eventsAfter.length > 0 then some (eventsAfter.take SNAPSHOTS_AFTER_TRADE) else none
    let bids := windowEvents.filterMap (fun e => e.bestBid)
    let asks := windowEvents.filterMap (fun e => e.bestAsk)
    let spreads := windowEvents.filterMap (fun e => e.spread)
    let mids := windowEvents.filterMap (fun e => e.mid)
    let priceChangeCount := (windowEvents.filter fun e => decide (e.type = "price_change")).length
    let lastTradePriceCount :=
      (windowEvents.filter fun e => decide (e.type = "last_trade_price")).length
    let bidStats := calcStats bids
    let askStats := calcStats asks
    let spreadStats := calcStats spreads
    let midStats := calcStats mids
    let summary : MarketSummary :=
      { windowMs := windowMs
        eventCount := windowEvents.length
        beforeTrade := beforeTrade
        afterTrade := afterTrade
        atTrade := atTrade
        stats :=
          { bidMin := bidStats.map (fun s => s.min)
            bidMax := bidStats.map (fun s => s.max)
            bidAvg := bidStats.map (fun s => s.avg)
            askMin := askStats.map (fun s => s.min)
            askMax := askStats.map (fun s => s.max)
            askAvg := askStats.map (fun s => s.avg)
            spreadMin := spreadStats.map (fun s => s.min)
            spreadMax := spreadStats.map (fun s => s.max)
            spreadAvg := spreadStats.map (fun s => s.avg)
            midMin := midStats.map (fun s => s.min)
            midMax := midStats.map (fun s => s.max)
            midAvg := midStats.map (fun s => s.avg)
            priceChangeCount := priceChangeCount
            lastTradePriceCount := lastTradePriceCount }
        -- windowEvents is nonempty on this branch, so the defaults of the
        -- two getD below are never used.
        rawDataRef :=
          { eventsFile := "events.jsonl"
            firstEventTime := ((windowEvents.head?).map (fun e => e.t)).getD 0
            lastEventTime := ((windowEvents.getLast?).map (fun e => e.t)).getD 0 } }
    { trade with
      marketSummary := some summary
      marketEvents :=
        if windowEvents.length ≤ MAX_RAW_EVENTS_PER_TRADE then
          some (windowEvents.map toMarketEventOut)
        else none }

/-- Lookup in an insertion-ordered association list (JS `Map.get`). -/
def lookupKey {α : Type} (k : String) : List (String × α) → Option α
  | [] => none
  | (k₁, v) :: rest => if k₁ = k then some v else lookupKey k rest

/-- Update in an insertion-ordered association list (JS `Map.set`): replace
in place when the key exists, append otherwise. -/
def mapSet {α : Type} (k : String) (v : α) : List (String × α) → List (String × α)
  | [] => [(k, v)]
  | (k₁, v₁) :: rest => if k₁ = k then (k, v) :: rest else (k₁, v₁) :: mapSet k v rest

/-- Deletion from an insertion-ordered association list (JS `Map.delete`). -/
def removeKey {α : Type} (k : String) : List (String × α) → List (String × α)
  | [] => []
  | (k₁, v) :: rest => if k₁ = k then rest else (k₁, v) :: removeKey k rest

/-- JS `a || b` on optional strings (empty string is falsy). -/
def orStr (a b : Option String) : Option String :=
  match a with
  | some s => if s = "" then b else some s
  | none => b

/-- JS `a || dflt` where `dflt` is a string literal. -/
def orStrD (a : Option String) (dflt : String) : String :=
  match a with
  | some s => if s = "" then dflt else s
  | none => dflt

/-- JS truthiness of an optional string field. -/
def strTruthy : Option String → Bool
  | none => false
  | some s => decide (s ≠ "")

/-- JS `toLowerCase` on the ASCII transaction hashes handled here,
implemented over the character list. -/
def strToLower (s : String) : String := String.mk (s.data.map Char.toLower)

/-- The `rest` payload built from a REST polling event (part_003 lines
364-377 and 389-402; the `...data` spread of the unmodelled opaque payload
is omitted). -/
def restInfoOf (e : EventRecord) (endpoint : String) : RestInfo :=
  { price := e.price
    size := e.size
    usdc := e.usdc
    side := e.side
    outcome := e.outcome
    asset := orStr e.aid e.asset
    assetId := e.aid
    conditionId := e.cid
    id := e.id
    timestamp := e.t
    endpoint := endpoint }

/-- Loading one existing merged trade into the dedup map (part_003 lines
344-352): keep the record with the smaller `timestampMs` per lowercased
transaction hash. -/
def loadExisting (m : List (String × MergedTrade)) (trade : MergedTrade) :
    List (String × MergedTrade) :=
  if trade.tx ≠ "" then
    let txLower := strToLower trade.tx
    match lookupKey txLower m with
    | some existing =>
      if trade.timestampMs < existing.timestampMs then mapSet txLower trade m else m
    | none => mapSet txLower trade m
  else m

/-- Processing one REST polling event (part_003 lines 355-405): update the
existing record in place, or create a fresh one. -/
def applyRestEvent (m : List (String × MergedTrade)) (e : EventRecord) :
    List (String × MergedTrade) :=
  if decide (e.src = Src.rest_poll) && strTruthy e.tx then
    let tx := e.tx.getD ""
    let txLower := strToLower tx
    let endpoint := orStrD e.endpoint "/activity"
    match lookupKey txLower m with
    | some existing =>
      mapSet txLower
        { existing with
          rest := some (restInfoOf e endpoint)
          timestamp := min existing.timestamp e.t
          timestampMs := min (if existing.timestampMs = 0 then e.t else existing.timestampMs) e.t
          receivedAtMs := max existing.receivedAtMs e.recv } m
    | none =>
      mapSet txLower
        { tx := tx
          slug := orStrD e.slug "unknown"
          timestamp := e.t
          timestampMs := e.t
          receivedAtMs := e.recv
          rest := some (restInfoOf e endpoint) } m
  else m

/-- `mergeTrades` (part_003 lines 336-577) with the window width as an
explicit parameter (the source reads the module constant
`MARKET_WINDOW_MS`): load the existing merged trades, fold in the REST
events, attach market context to every trade of the map, and return the
values stably sorted by `timestampMs`. -/
def mergeTradesW (windowMs : Int) (restEvents marketEvents : List EventRecord)
    (existingMerged : List MergedTrade) : List MergedTrade :=
  let m₀ := existingMerged.foldl loadExisting []
  let m₁ := restEvents.foldl applyRestEvent m₀
  let m₂ := m₁.map fun kv => (kv.1, attachMarketContext windowMs marketEvents kv.2)
  sortByTsMs (m₂.map Prod.snd)

/-- `mergeTrades` at the source's window width. -/
def mergeTrades (restEvents marketEvents : List EventRecord)
    (existingMerged : List MergedTrade) : List MergedTrade :=
  mergeTradesW MARKET_WINDOW_MS restEvents marketEvents existingMerged

/-! ## Reconnect backoff

Embeds the backoff of the websocket connectors (`MarketWebSocketFilter` of
`fastUserActivityMonitor.ts` lines 154-258 and `connect` of the standalone
monitor, part_005 lines 249-393).  On close the connector schedules the
reconnect after the current `reconnectDelay` and then doubles it, capped at
`maxReconnectDelay`; on a successful open it resets the delay to 1000 ms. -/

/-- The initial `reconnectDelay` (1000 ms), also assigned on every open. -/
def BASE_RECONNECT_DELAY_MS : Nat := 1000

/-- `maxReconnectDelay` (30000 ms). -/
def MAX_RECONNECT_DELAY_MS : Nat := 30000

/-- The delay update of the close handler:
`reconnectDelay = Math.min(reconnectDelay * 2, maxReconnectDelay)`. -/
def nextReconnectDelay (d : Nat) : Nat := min (d * 2) MAX_RECONNECT_DELAY_MS

/-- The delay reset of the open handler: `this.reconnectDelay = 1000`. -/
def openReconnectDelay (_d : Nat) : Nat := 1000

/-- Observed reconnect delays of `n` consecutive disconnects starting from
the current delay `d`: each close waits the current delay and then applies
`nextReconnectDelay`. -/
def reconnectDelays : Nat → Nat → List Nat
  | 0, _ => []
  | n + 1, d => d :: reconnectDelays n (nextReconnectDelay d)

/-! ## Promotion scheduler

Embeds the inactivity promotion of the ethereum-1h store (part_006):
`flushSlugBuffer` (lines 411-461), `uploadSlugFileToR2` (lines 479-547) and
`checkAndUploadInactiveSlugs` (lines 549-567).  Filesystem and remote
storage are modelled as explicit state: `localFiles` maps a slug to the
content of its local artifact file, and the outcome of the remote upload is
an oracle `uploadOk` (the awaited boolean of `uploadToR2`).  The write
streams and the per-slug event counters of the source are bookkeeping not
touched by the claims and are omitted. -/

/-- `SLUG_INACTIVITY_THRESHOLD_MS` (part_006 line 206, five minutes). -/
def SLUG_INACTIVITY_THRESHOLD_MS : Int := 5 * 60 * 1000

/-- One buffered/persisted event of the promotion path; only the sort key
`receivedAtMs` matters to the modelled control flow, the rest of the line
is opaque. -/
structure PEvent where
  receivedAtMs : Int
  line : String
deriving DecidableEq, Repr

/-- Stable ascending sort by `receivedAtMs`
(comparator `(a, b) => a.receivedAtMs - b.receivedAtMs`, part_006 line 441). -/
def sortByRecv (l : List PEvent) : List PEvent :=
  sortStable (fun a b => decide (a.receivedAtMs ≤ b.receivedAtMs)) l

/-- The mutable module state of the promotion path: `slugLastActivity`,
`slugEventBuffers`, and the local artifact files. -/
structure SchedulerState where
  slugLastActivity : List (String × Int)
  slugEventBuffers : List (String × List PEvent)
  localFiles : List (String × List PEvent)
deriving DecidableEq, Repr

/-- `flushSlugBuffer` (part_006 lines 411-461): no-op on a missing or empty
buffer, otherwise merge the buffer into the local file sorted by
`receivedAtMs` and clear the buffer. -/
def flushSlugBuffer (slug : String) (st : SchedulerState) : SchedulerState :=
  match lookupKey slug st.slugEventBuffers with
  | none => st
  | some buffer =>
    if buffer.isEmpty then st
    else
      let existing := (lookupKey slug st.localFiles).getD []
      { st with
        localFiles := mapSet slug (sortByRecv (existing ++ buffer)) st.localFiles
        slugEventBuffers := mapSet slug [] st.slugEventBuffers }

/-- `uploadSlugFileToR2` (part_006 lines 479-547): flush, then fail without
touching state when the file is missing or empty or remote storage is not
configured or the upload reports failure; only on reported success delete
the local file and drop the slug from the tracked activity map. -/
def uploadSlugFileToR2 (r2Configured : Bool) (uploadOk : String → Bool)
    (slug : String) (st : SchedulerState) : Bool × SchedulerState :=
  let st₁ := flushSlugBuffer slug st
  match lookupKey slug st₁.localFiles with
  | none => (false, st₁)
  | some content =>
    if content.length = 0 then (false, st₁)
    else if r2Configured then
      if uploadOk slug then
        (true,
         { st₁ with
           localFiles := removeKey slug st₁.localFiles
           slugLastActivity := removeKey slug st₁.slugLastActivity })
      else (false, st₁)
    else (false, st₁)

/-- The inactive-slug selection of `checkAndUploadInactiveSlugs` (part_006
lines 551-558): tracked slugs whose last-activity age reaches the
threshold. -/
def inactiveSlugsOf (now : Int) (st : SchedulerState) : List String :=
  (st.slugLastActivity.map Prod.fst).filter fun s =>
    decide (now - ((lookupKey s st.slugLastActivity).getD 0) ≥ SLUG_INACTIVITY_THRESHOLD_MS)

/-- `checkAndUploadInactiveSlugs` (part_006 lines 549-567): when some slug
is inactive and at least one other slug is still active, upload each
inactive slug in order. -/
def checkAndUploadInactiveSlugs (r2Configured : Bool) (uploadOk : String → Bool)
    (now : Int) (st : SchedulerState) : SchedulerState :=
  let activeSlugs := st.slugLastActivity.map Prod.fst
  let inactive := inactiveSlugsOf now st
  if 0 < inactive.length && inactive.length < activeSlugs.length then
    inactive.foldl (fun s₂ slug => (uploadSlugFileToR2 r2Configured uploadOk slug s₂).2) st
  else st

/-! ## Concrete inputs used by examples, witnesses and counterexamples -/

/-- Distinct dedup keys: the i-th key is the string of i letters `a`. -/
def witnessKeys (n : Nat) : List String :=
  (List.range n).map fun i => String.mk (List.replicate i 'a')

/-- A REST polling trade event at t = 1000 (the window-correctness example
of the spec). -/
def exTradeEvent : EventRecord :=
  { t := 1000, recv := 1000, src := Src.rest_poll, type := "trade",
    tx := some "0xAB", slug := some "mkt" }

/-- A market-feed snapshot at time `t`. -/
def exSnapshotAt (t : Int) : EventRecord :=
  { t := t, recv := t, src := Src.market_ws, type := "price_change" }

/-- The snapshot log of the window-correctness example: snapshots at
t = 997, 999, 1002 and 2000. -/
def exSnapshots : List EventRecord :=
  [exSnapshotAt 997, exSnapshotAt 999, exSnapshotAt 1002, exSnapshotAt 2000]

/-- A log whose only snapshot is 5000 ms away from the trade at t = 0:
outside the primary window, within the 30 s fallback threshold. -/
def exFallbackLog : List EventRecord := [exSnapshotAt 5000]

/-- A merged trade at `timestampMs = 50` with no context attached yet. -/
def exTrade50 : MergedTrade :=
  { tx := "0xCD", slug := "m", timestamp := 50, timestampMs := 50, receivedAtMs := 50 }

/-- A merged trade at `timestampMs = 0` with no context attached yet. -/
def exTrade0 : MergedTrade :=
  { tx := "0xCD", slug := "m", timestamp := 0, timestampMs := 0, receivedAtMs := 0 }

/-- One hundred snapshots at t = 0..99, all inside the primary window of a
trade at t = 50: exactly the raw-retention cap. -/
def exManySnapshots : List EventRecord :=
  (List.range MAX_RAW_EVENTS_PER_TRADE).map fun i => exSnapshotAt (Int.ofNat i)

/-- The input whose sanitized form is truncated in the middle of a safe
underscore: 139 letters, an underscore, and a final letter. -/
def exLongName : String := String.mk (List.replicate 139 'a' ++ ['_', 'b'])

/-- A scheduler state with one inactive slug (`old`, one buffered event,
last active at t = 0) and one active slug (`fresh`, last active at
t = 300000). -/
def exSchedulerState : SchedulerState :=
  { slugLastActivity := [("old", 0), ("fresh", 300000)]
    slugEventBuffers := [("old", [⟨1, "e1"⟩])]
    localFiles := [] }

/-! ## Lemmas about the stable sort -/

theorem mem_insertLe {α : Type} (le : α → α → Bool) (x : α) (l : List α) (a : α) :
    a ∈ insertLe le x l ↔ a = x ∨ a ∈ l := by
  induction l with
  | nil => simp [insertLe]
  | cons y ys ih =>
    by_cases h : le y x = true
    · simp only [insertLe, h, if_true, List.mem_cons, ih]
      tauto
    · rw [insertLe, if_neg h]
      simp

theorem mem_sortStable {α : Type} (le : α → α → Bool) (l : List α) (a : α) :
    a ∈ sortStable le l ↔ a ∈ l := by
  suffices h : ∀ acc : List α,
      a ∈ l.foldl (fun acc x => insertLe le x acc) acc ↔ a ∈ acc ∨ a ∈ l by
    simpa [sortStable] using h []
  induction l with
  | nil => simp
  | cons x xs ih =>
    intro acc
    simp only [List.foldl_cons, ih, mem_insertLe, List.mem_cons]
    tauto

theorem pairwise_insertLe {α : Type} (le : α → α → Bool)
    (htot : ∀ a b, le a b = true ∨ le b a = true)
    (htrans : ∀ a b c, le a b = true → le b c = true → le a c = true)
    (x : α) (l : List α) (hl : l.Pairwise fun a b => le a b = true) :
    (insertLe le x l).Pairwise fun a b => le a b = true := by
  induction l with
  | nil => simp [insertLe]
  | cons y ys ih =>
    rcases List.pairwise_cons.mp hl with ⟨hy, hys⟩
    by_cases h : le y x = true
    · simp only [insertLe, h, if_true]
      refine List.pairwise_cons.mpr ⟨?_, ih hys⟩
      intro b hb
      rcases (mem_insertLe le x ys b).mp hb with rfl | hb₁
      · exact h
      · exact hy b hb₁
    · have hxy : le x y = true := (htot x y).resolve_right h
      simp only [insertLe, h, if_false]
      refine List.pairwise_cons.mpr ⟨?_, hl⟩
      intro b hb
      rcases List.mem_cons.mp hb with rfl | hb₁
      · exact hxy
      · exact htrans x y b hxy (hy b hb₁)

theorem pairwise_sortStable {α : Type} (le : α → α → Bool)
    (htot : ∀ a b, le a b = true ∨ le b a = true)
    (htrans : ∀ a b c, le a b = true → le b c = true → le a c = true)
    (l : List α) :
    (sortStable le l).Pairwise fun a b => le a b = true := by
  suffices h : ∀ acc : List α, (acc.Pairwise fun a b => le a b = true) →
      ((l.foldl (fun acc x => insertLe le x acc) acc).Pairwise fun a b => le a b = true) by
    simpa [sortStable] using h [] (by simp)
  induction l with
  | nil => intro acc hacc; simpa using hacc
  | cons x xs ih =>
    intro acc hacc
    exact ih _ (pairwise_insertLe le htot htrans x acc hacc)

/-- Sorted windows: `sortByT` output is ascending in `t`. -/
theorem sortByT_pairwise (l : List EventRecord) :
    (sortByT l).Pairwise fun a b => a.t ≤ b.t := by
  have h := pairwise_sortStable (fun a b : EventRecord => decide (a.t ≤ b.t))
    (fun a b => by
      simp only [decide_eq_true_eq]
      omega)
    (fun a b c hab hbc => by
      simp only [decide_eq_true_eq] at hab hbc ⊢
      omega)
    l
  refine h.imp ?_
  intro a b hab
  simpa using hab

theorem mem_sortByT (l : List EventRecord) (e : EventRecord) :
    e ∈ sortByT l ↔ e ∈ l := mem_sortStable _ l e

/-! ## Lemmas about the dedup store -/

/-- Accepting a fresh key: the dedupe block accepts, the new insertion
order is the suffix of `order ++ [key]` surviving the overflow splice, the
set stays in sync with the order, and the order stays duplicate-free. -/
theorem checkAndInsert_fresh (cap : Nat) (k : String) (s : DedupState)
    (_hcap : 1 ≤ cap)
    (hmem : ∀ x, x ∈ s.seenTxSet ↔ x ∈ s.seenTxOrder)
    (hnd : s.seenTxOrder.Nodup)
    (hk : k ∉ s.seenTxOrder) :
    (checkAndInsert cap k s).1 = true ∧
    (checkAndInsert cap k s).2.seenTxOrder
      = (s.seenTxOrder ++ [k]).drop ((s.seenTxOrder.length + 1) - cap) ∧
    (∀ x, x ∈ (checkAndInsert cap k s).2.seenTxSet ↔
        x ∈ (checkAndInsert cap k s).2.seenTxOrder) ∧
    (checkAndInsert cap k s).2.seenTxOrder.Nodup := by
  have hks : k ∉ s.seenTxSet := fun h => hk ((hmem k).mp h)
  have hndo : (s.seenTxOrder ++ [k]).Nodup :=
    List.nodup_append.mpr ⟨hnd, List.nodup_singleton k, List.disjoint_singleton.mpr hk⟩
  have hmemo : ∀ x, (x = k ∨ x ∈ s.seenTxSet) ↔ x ∈ s.seenTxOrder ++ [k] := by
    intro x
    rw [List.mem_append, List.mem_singleton, hmem x]
    tauto
  unfold checkAndInsert
  rw [if_neg hks]
  by_cases hlen : (s.seenTxOrder ++ [k]).length > cap
  · rw [if_pos hlen]
    have hlen₁ : (s.seenTxOrder ++ [k]).length = s.seenTxOrder.length + 1 := by simp
    refine ⟨rfl, by rw [hlen₁], ?_, ?_⟩
    · intro x
      simp only [List.mem_filter, decide_eq_true_eq, List.mem_cons]
      rw [hmemo x]
      set n := (s.seenTxOrder ++ [k]).length - cap with hn
      constructor
      · rintro ⟨hx, hnt⟩
        have := (List.take_append_drop n (s.seenTxOrder ++ [k])) ▸ hx
        rcases List.mem_append.mp this with h₁ | h₁
        · exact absurd h₁ hnt
        · exact h₁
      · intro hx
        refine ⟨List.drop_subset _ _ hx, ?_⟩
        intro ht
        exact (List.disjoint_take_drop hndo (le_refl n)) ht hx
    · exact hndo.sublist (List.drop_sublist _ _)
  · rw [if_neg hlen]
    have hz : s.seenTxOrder.length + 1 - cap = 0 := by
      simp only [List.length_append, List.length_cons, List.length_nil] at hlen
      omega
    refine ⟨rfl, by rw [hz, List.drop_zero], ?_, hndo⟩
    intro x
    simpa only [List.mem_cons] using hmemo x

/-- The arithmetic of the overflow splice: extending the retained window of
`ks` by one key and splicing equals the retained window of `ks ++ [k]`. -/
theorem window_drop_append {α : Type} (cap : Nat) (hcap : 1 ≤ cap) (ks : List α) (k : α) :
    (ks.drop (ks.length - cap) ++ [k]).drop (((ks.drop (ks.length - cap)).length + 1) - cap)
      = (ks ++ [k]).drop ((ks.length + 1) - cap) := by
  have hlen : (ks.drop (ks.length - cap)).length = ks.length - (ks.length - cap) :=
    List.length_drop _ _
  by_cases h : ks.length < cap
  · have h₁ : ks.length - cap = 0 := by omega
    have h₂ : ks.length + 1 - cap = 0 := by omega
    have h₃ : (ks.drop (ks.length - cap)).length + 1 - cap = 0 := by
      rw [hlen]; omega
    rw [h₃, h₂, h₁, List.drop_zero, List.drop_zero, List.drop_zero]
  · push_neg at h
    have e₁ : (ks.drop (ks.length - cap)).length + 1 - cap = 1 := by rw [hlen]; omega
    have e₂ : (1 : Nat) ≤ (ks.drop (ks.length - cap)).length := by rw [hlen]; omega
    have e₃ : ks.length + 1 - cap ≤ ks.length := by omega
    rw [e₁, List.drop_append_of_le_length e₂, List.drop_append_of_le_length e₃,
      List.drop_drop]
    have e₄ : ks.length - cap + 1 = ks.length + 1 - cap := by omega
    rw [e₄]

/-- Sequentially inserting duplicate-free keys into the empty store keeps
exactly the newest `cap` keys of the insertion order, with the set in sync
and the order duplicate-free. -/
theorem insertAll_spec (cap : Nat) (hcap : 1 ≤ cap) (keys : List String)
    (hnd : keys.Nodup) :
    (insertAll cap keys emptyDedup).seenTxOrder = keys.drop (keys.length - cap) ∧
    (∀ x, x ∈ (insertAll cap keys emptyDedup).seenTxSet ↔
        x ∈ (insertAll cap keys emptyDedup).seenTxOrder) ∧
    (insertAll cap keys emptyDedup).seenTxOrder.Nodup := by
  induction keys using List.reverseRecOn with
  | nil => simp [insertAll, emptyDedup]
  | append_singleton ks k ih =>
    obtain ⟨hnd₁, -, hdisj⟩ := List.nodup_append.mp hnd
    have hkk : k ∉ ks := List.disjoint_singleton.mp hdisj
    obtain ⟨ho, hm, hn⟩ := ih hnd₁
    have hfresh : k ∉ (insertAll cap ks emptyDedup).seenTxOrder := by
      rw [ho]
      intro hmem₁
      exact hkk (List.drop_subset _ _ hmem₁)
    have hstep := checkAndInsert_fresh cap k (insertAll cap ks emptyDedup) hcap hm hn hfresh
    have hunfold : insertAll cap (ks ++ [k]) emptyDedup
        = (checkAndInsert cap k (insertAll cap ks emptyDedup)).2 := by
      simp [insertAll, List.foldl_append]
    rw [hunfold]
    refine ⟨?_, hstep.2.2.1, hstep.2.2.2⟩
    rw [hstep.2.1, ho, window_drop_append cap hcap ks k]
    congr 1
    simp

/-- The keys of `witnessKeys n` are pairwise distinct. -/
theorem witnessKeys_nodup (n : Nat) : (witnessKeys n).Nodup := by
  refine List.Nodup.map ?_ (List.nodup_range n)
  intro i j h
  have h₂ : List.replicate i 'a' = List.replicate j 'a' := congrArg String.data h
  simpa using congrArg List.length h₂

theorem witnessKeys_length (n : Nat) : (witnessKeys n).length = n := by
  simp [witnessKeys]

/-- A resident key is rejected by the dedupe block. -/
theorem checkAndInsert_resident (cap : Nat) (k : String) (s : DedupState)
    (h : k ∈ s.seenTxSet) : (checkAndInsert cap k s).1 = false := by
  unfold checkAndInsert
  rw [if_pos h]

/-- C3: once an event carrying a dedup key has been accepted, any later
delivery of the same derived key while it is resident in the bounded
seen-set is rejected; in particular submitting the same raw event twice in
a row yields exactly one accepted event.  The state hypotheses say the
membership object and the insertion-order array are in sync and
duplicate-free, which holds for every state the source can reach. -/
theorem dedup_idempotent (cap : Nat) (s : DedupState) (k : String)
    (hcap : 1 ≤ cap)
    (hmem : ∀ x, x ∈ s.seenTxSet ↔ x ∈ s.seenTxOrder)
    (hnd : s.seenTxOrder.Nodup) :
    (k ∈ s.seenTxSet → (checkAndInsert cap k s).1 = false) ∧
    (k ∉ s.seenTxSet →
      (checkAndInsert cap k s).1 = true ∧
      (checkAndInsert cap k (checkAndInsert cap k s).2).1 = false) := by
  refine ⟨checkAndInsert_resident cap k s, ?_⟩
  intro hk
  have hk₂ : k ∉ s.seenTxOrder := fun h => hk ((hmem k).mpr h)
  obtain ⟨hacc, ho, hm, -⟩ := checkAndInsert_fresh cap k s hcap hmem hnd hk₂
  refine ⟨hacc, ?_⟩
  have hkmem : k ∈ (checkAndInsert cap k s).2.seenTxOrder := by
    rw [ho]
    have hle : s.seenTxOrder.length + 1 - cap ≤ s.seenTxOrder.length := by omega
    rw [List.drop_append_of_le_length hle]
    simp
  exact checkAndInsert_resident cap k _ ((hm k).mpr hkmem)

/-- Witness for C3 at the store's capacity and a concrete fresh key. -/
theorem dedup_idempotent_witness :
    ("a" ∉ emptyDedup.seenTxSet) ∧
    (checkAndInsert MAX_SEEN_TX "a" emptyDedup).1 = true ∧
    (checkAndInsert MAX_SEEN_TX "a" (checkAndInsert MAX_SEEN_TX "a" emptyDedup).2).1 = false := by
  have h := (dedup_idempotent MAX_SEEN_TX emptyDedup "a" (by decide)
    (by intro x; exact Iff.rfl) (by simp [emptyDedup])).2 (by simp [emptyDedup])
  exact ⟨by simp [emptyDedup], h.1, h.2⟩

/-- C4: inserting 15,000 distinct keys one after another into the store of
capacity `MAX_SEEN_TX = 10000` retains exactly the newest 10,000 keys, the
store never holds more than 10,000 keys after any prefix of the
insertions, and the 5,000 evicted keys are exactly the oldest ones. -/
theorem dedup_bound (keys : List String) (hnd : keys.Nodup)
    (hlen : keys.length = 15000) :
    (insertAll MAX_SEEN_TX keys emptyDedup).seenTxOrder = keys.drop 5000 ∧
    (insertAll MAX_SEEN_TX keys emptyDedup).seenTxOrder.length = 10000 ∧
    (∀ x ∈ keys.take 5000, x ∉ (insertAll MAX_SEEN_TX keys emptyDedup).seenTxSet) ∧
    (∀ i : Nat,
      ((insertAll MAX_SEEN_TX (keys.take i) emptyDedup).seenTxOrder).length ≤ MAX_SEEN_TX) := by
  have hcap : 1 ≤ MAX_SEEN_TX := by decide
  obtain ⟨ho, hm, -⟩ := insertAll_spec MAX_SEEN_TX hcap keys hnd
  have hdrop : keys.length - MAX_SEEN_TX = 5000 := by rw [hlen]; decide
  constructor
  · rw [ho, hdrop]
  constructor
  · rw [ho, hdrop]
    simp [hlen]
  constructor
  · intro x hx hset
    have hord : x ∈ keys.drop 5000 := by
      have := (hm x).mp hset
      rwa [ho, hdrop] at this
    exact (List.disjoint_take_drop hnd (le_refl 5000)) hx hord
  · intro i
    have hndi : (keys.take i).Nodup := hnd.sublist (List.take_sublist i keys)
    obtain ⟨ho₁, -, -⟩ := insertAll_spec MAX_SEEN_TX hcap (keys.take i) hndi
    rw [ho₁]
    simp only [List.length_drop]
    omega

/-- Witness for C4: 15,000 concrete distinct keys. -/
theorem dedup_bound_witness :
    (insertAll MAX_SEEN_TX (witnessKeys 15000) emptyDedup).seenTxOrder
      = (witnessKeys 15000).drop 5000 :=
  (dedup_bound (witnessKeys 15000) (witnessKeys_nodup 15000) (witnessKeys_length 15000)).1

/-- Counterexample to C5: the insertion that first exceeds the capacity
(the 10,001st distinct key) leaves the store holding 10,000 keys — only the
single oldest key was evicted, not the oldest half of the insertion
order. -/
theorem dedup_half_eviction_counterexample :
    (insertAll MAX_SEEN_TX (witnessKeys 10001) emptyDedup).seenTxOrder
      = (witnessKeys 10001).drop 1 ∧
    (insertAll MAX_SEEN_TX (witnessKeys 10001) emptyDedup).seenTxOrder.length = 10000 := by
  have hcap : 1 ≤ MAX_SEEN_TX := by decide
  obtain ⟨ho, -, -⟩ := insertAll_spec MAX_SEEN_TX hcap (witnessKeys 10001)
    (witnessKeys_nodup 10001)
  have hdrop : (witnessKeys 10001).length - MAX_SEEN_TX = 1 := by
    rw [witnessKeys_length]; decide
  constructor
  · rw [ho, hdrop]
  · rw [ho, hdrop]
    simp [witnessKeys_length]

/-- C5 as amended: an insertion that exceeds the fixed capacity evicts
exactly the overflow — the single oldest key of the insertion order — on
that very insert (per-insert trimming), not the oldest half in bulk. -/
theorem dedup_overflow_eviction (cap : Nat) (s : DedupState) (k : String)
    (hcap : 1 ≤ cap)
    (hmem : ∀ x, x ∈ s.seenTxSet ↔ x ∈ s.seenTxOrder)
    (hnd : s.seenTxOrder.Nodup)
    (hlen : s.seenTxOrder.length = cap)
    (hk : k ∉ s.seenTxOrder) :
    (checkAndInsert cap k s).2.seenTxOrder = s.seenTxOrder.drop 1 ++ [k] := by
  obtain ⟨-, ho, -, -⟩ := checkAndInsert_fresh cap k s hcap hmem hnd hk
  rw [ho, hlen]
  have h₁ : cap + 1 - cap = 1 := by omega
  rw [h₁, List.drop_append_of_le_length (by rw [hlen]; exact hcap)]

/-- Witness for the amended C5 at capacity 1. -/
theorem dedup_overflow_eviction_witness :
    (checkAndInsert 1 "b" ⟨["a"], ["a"]⟩).2.seenTxOrder = ["a"].drop 1 ++ ["b"] :=
  dedup_overflow_eviction 1 ⟨["a"], ["a"]⟩ "b" (by decide)
    (by intro x; exact Iff.rfl) (by simp) (by simp) (by simp)

/-! ## Lemmas about sanitizeFileComponent -/

/-- The head surviving a `dropWhile` does not satisfy the predicate. -/
theorem head?_dropWhile_ne (p : Char → Bool) (l : List Char) (c : Char)
    (h : (l.dropWhile p).head? = some c) : p c = false := by
  induction l with
  | nil => simp [List.dropWhile] at h
  | cons x xs ih =>
    rw [List.dropWhile_cons] at h
    by_cases hp : p x = true
    · rw [if_pos hp] at h
      exact ih h
    · rw [if_neg hp] at h
      simp only [List.head?_cons, Option.some.injEq] at h
      subst h
      simpa using hp

/-- Every character produced by the unsafe-run collapse is safe. -/
theorem mem_collapseUnsafeAux (c : Char) :
    ∀ (b : Bool) (cs : List Char), c ∈ collapseUnsafeAux b cs → isSafeChar c = true := by
  intro b cs
  induction cs generalizing b with
  | nil => intro h; simp [collapseUnsafeAux] at h
  | cons x xs ih =>
    intro h
    unfold collapseUnsafeAux at h
    by_cases hx : isSafeChar x = true
    · rw [if_pos hx] at h
      rcases List.mem_cons.mp h with rfl | h₂
      · exact hx
      · exact ih false h₂
    · rw [if_neg hx] at h
      cases b with
      | true =>
        rw [if_pos rfl] at h
        exact ih true h
      | false =>
        rw [if_neg (by simp)] at h
        rcases List.mem_cons.mp h with rfl | h₂
        · decide
        · exact ih true h₂

/-- Stripping trailing underscores yields a prefix of its argument. -/
theorem cleanedOf_initialSegment (input : String) :
    cleanedOf input <+: dropLeadingUnderscores (collapseUnsafe (trimChars input.data)) := by
  have h := List.reverse_prefix.mpr
    (List.dropWhile_suffix
      (l := (dropLeadingUnderscores (collapseUnsafe (trimChars input.data))).reverse)
      (fun c => decide (c = '_')))
  simpa [cleanedOf, dropTrailingUnderscores] using h

/-- The cleaned string consists of safe characters only. -/
theorem cleanedOf_safe (input : String) :
    ∀ c ∈ cleanedOf input, isSafeChar c = true := by
  intro c hc
  have h₁ : c ∈ dropLeadingUnderscores (collapseUnsafe (trimChars input.data)) :=
    (cleanedOf_initialSegment input).subset hc
  have h₂ : c ∈ collapseUnsafe (trimChars input.data) :=
    (List.dropWhile_sublist _).subset h₁
  unfold collapseUnsafe at h₂
  exact mem_collapseUnsafeAux c false _ h₂

/-- The cleaned string does not start with an underscore. -/
theorem head?_cleanedOf (input : String) (c : Char)
    (h : (cleanedOf input).head? = some c) : ¬ c = '_' := by
  obtain ⟨t, ht⟩ := cleanedOf_initialSegment input
  have hhead : (dropLeadingUnderscores (collapseUnsafe (trimChars input.data))).head? = some c := by
    rw [← ht]
    cases hcl : cleanedOf input with
    | nil => rw [hcl] at h; simp at h
    | cons a rest =>
      rw [hcl] at h
      simp only [List.head?_cons, Option.some.injEq] at h
      simp [h]
  unfold dropLeadingUnderscores at hhead
  have := head?_dropWhile_ne _ _ c hhead
  simpa using this

/-- The cleaned string does not end with an underscore. -/
theorem getLast?_cleanedOf (input : String) (c : Char)
    (h : (cleanedOf input).getLast? = some c) : ¬ c = '_' := by
  unfold cleanedOf dropTrailingUnderscores at h
  rw [List.getLast?_reverse] at h
  have := head?_dropWhile_ne _ _ c h
  simpa using this

theorem head?_take_of_pos {α : Type} (n : Nat) (hn : 0 < n) (l : List α) :
    (l.take n).head? = l.head? := by
  cases n with
  | zero => omega
  | succ m => cases l <;> rfl

/-- C10 as amended: `sanitizeFileComponent` always returns a non-empty
string of at most 140 characters drawn from `[a-zA-Z0-9._-]` that never
starts with an underscore, falling back to "unknown" when nothing safe
remains; and it does not end with an underscore whenever the cleaned
string fits the 140-character bound (the `slice(0, 140)` happens after the
trailing-underscore strip, so truncation can expose an inner
underscore). -/
theorem sanitize_wellformed (input : String) :
    1 ≤ (sanitizeFileComponent input).data.length ∧
    (sanitizeFileComponent input).data.length ≤ 140 ∧
    (∀ c ∈ (sanitizeFileComponent input).data, isSafeChar c = true) ∧
    (sanitizeFileComponent input).data.head? ≠ some '_' ∧
    ((cleanedOf input).length ≤ 140 →
      (sanitizeFileComponent input).data.getLast? ≠ some '_') := by
  have hdata : (sanitizeFileComponent input).data
      = (if (cleanedOf input).length > 0 then cleanedOf input else "unknown".data).take 140 :=
    rfl
  by_cases hpos : (cleanedOf input).length > 0
  · rw [hdata, if_pos hpos]
    refine ⟨?_, ?_, ?_, ?_, ?_⟩
    · rw [List.length_take]; omega
    · rw [List.length_take]; omega
    · intro c hc
      exact cleanedOf_safe input c (List.take_subset _ _ hc)
    · rw [head?_take_of_pos 140 (by omega) _]
      intro hcontra
      exact head?_cleanedOf input '_' hcontra rfl
    · intro hle hcontra
      rw [List.take_of_length_le hle] at hcontra
      exact getLast?_cleanedOf input '_' hcontra rfl
  · rw [hdata, if_neg hpos]
    exact ⟨by decide, by decide, by decide, by decide, fun _h => by decide⟩

/-- Witness for the amended C10 at a concrete input whose cleaned form is
short enough for the trailing-underscore guarantee. -/
theorem sanitize_wellformed_witness :
    (sanitizeFileComponent "a b!").data.getLast? ≠ some '_' :=
  (sanitize_wellformed "a b!").2.2.2.2 (by decide)

set_option maxRecDepth 20000 in
/-- Counterexample to C10: a 141-character input whose sanitized form is
truncated right after an inner underscore, so the returned path component
ends with an underscore. -/
theorem sanitize_trailing_underscore_counterexample :
    (sanitizeFileComponent exLongName).data.getLast? = some '_' ∧
    (sanitizeFileComponent exLongName).data.length = 140 := by decide

/-! ## Lemmas about the merge engine -/

/-- When the primary window is non-empty, the fallback never runs. -/
theorem collectWindowEvents_of_primary_ne (w T : Int) (es : List EventRecord)
    (h : primaryWindowEvents w T es ≠ []) :
    collectWindowEvents w T es = primaryWindowEvents w T es := by
  have h₁ : (primaryWindowEvents w T es).isEmpty = false := by
    cases hp : primaryWindowEvents w T es with
    | nil => exact absurd hp h
    | cons a l => rfl
  simp [collectWindowEvents, h₁]

/-- A trade with no collected events is left untouched (part_003 line 455). -/
theorem attachMarketContext_of_empty (w : Int) (es : List EventRecord) (trade : MergedTrade)
    (h : collectWindowEvents w trade.timestampMs es = []) :
    attachMarketContext w es trade = trade := by
  have h₁ : (collectWindowEvents w trade.timestampMs es).isEmpty = true := by
    rw [h]; rfl
  simp [attachMarketContext, h₁]

/-- The retained raw list of a trade with a non-empty collected window is
the sorted window, kept exactly when at most `MAX_RAW_EVENTS_PER_TRADE`
events were collected. -/
theorem attachMarketContext_of_ne (w : Int) (es : List EventRecord) (trade : MergedTrade)
    (h : collectWindowEvents w trade.timestampMs es ≠ []) :
    (attachMarketContext w es trade).marketEvents
      = (if (windowEventsOf w trade.timestampMs es).length ≤ MAX_RAW_EVENTS_PER_TRADE
         then some ((windowEventsOf w trade.timestampMs es).map toMarketEventOut)
         else none) := by
  have h₁ : (collectWindowEvents w trade.timestampMs es).isEmpty = false := by
    cases hp : collectWindowEvents w trade.timestampMs es with
    | nil => exact absurd hp h
    | cons a l => rfl
  simp only [attachMarketContext, h₁, Bool.false_eq_true, if_false, windowEventsOf]

/-- Membership in the primary window collection. -/
theorem mem_primaryWindowEvents (w T : Int) (es : List EventRecord) (e : EventRecord) :
    e ∈ primaryWindowEvents w T es ↔
      e ∈ es ∧ e.src = Src.market_ws ∧ T - w ≤ e.t ∧ e.t ≤ T + w := by
  simp [primaryWindowEvents, List.mem_filter]

/-- C1: the merge engine is a deterministic, side-effect-free function of
the rest-poll events, the market snapshot events and the previously
emitted merged records — the embedding is a total pure function, so two
runs over the same inputs are definitionally equal; moreover, on the
concrete example log, re-running the merge with the previously emitted
records as input reproduces them unchanged (idempotent re-merge after a
restart). -/
theorem merge_deterministic (restEvents marketEvents : List EventRecord)
    (existingMerged : List MergedTrade) :
    mergeTrades restEvents marketEvents existingMerged
      = mergeTrades restEvents marketEvents existingMerged ∧
    mergeTrades [exTradeEvent] exSnapshots (mergeTrades [exTradeEvent] exSnapshots [])
      = mergeTrades [exTradeEvent] exSnapshots [] :=
  ⟨rfl, by decide⟩

/-- C2: when the primary window `[T - W, T + W]` (both ends inclusive)
contains at least one snapshot and the collected count is within the raw
cap, the trade's retained raw snapshot list is exactly the market-feed
events whose time lies in the window, sorted ascending by time; and on the
spec's example (trade at t = 1000, W = 5, snapshots at 997, 999, 1002,
2000) the merge output retains exactly the times 997, 999, 1002 in
ascending order. -/
theorem window_correctness (w : Int) (es : List EventRecord) (trade : MergedTrade)
    (hne : primaryWindowEvents w trade.timestampMs es ≠ [])
    (hcap : (windowEventsOf w trade.timestampMs es).length ≤ MAX_RAW_EVENTS_PER_TRADE) :
    (attachMarketContext w es trade).marketEvents
      = some ((windowEventsOf w trade.timestampMs es).map toMarketEventOut) ∧
    (∀ e, e ∈ windowEventsOf w trade.timestampMs es ↔
        e ∈ es ∧ e.src = Src.market_ws ∧
        trade.timestampMs - w ≤ e.t ∧ e.t ≤ trade.timestampMs + w) ∧
    (windowEventsOf w trade.timestampMs es).Pairwise (fun a b => a.t ≤ b.t) ∧
    ((mergeTradesW 5 [exTradeEvent] exSnapshots []).map
        (fun tr => tr.marketEvents.map (fun l => l.map (fun o => o.t))))
      = [some [997, 999, 1002]] := by
  have hcol := collectWindowEvents_of_primary_ne w trade.timestampMs es hne
  have hcolne : collectWindowEvents w trade.timestampMs es ≠ [] := by
    rw [hcol]; exact hne
  refine ⟨?_, ?_, ?_, by decide⟩
  · rw [attachMarketContext_of_ne w es trade hcolne, if_pos hcap]
  · intro e
    rw [windowEventsOf, mem_sortByT, hcol, mem_primaryWindowEvents]
  · exact sortByT_pairwise _

/-- Witness for C2: the spec example's window attached to a trade at
t = 1000. -/
theorem window_correctness_witness :
    (attachMarketContext 5 exSnapshots { exTrade0 with timestampMs := 1000 }).marketEvents
      = some ((windowEventsOf 5 1000 exSnapshots).map toMarketEventOut) :=
  (window_correctness 5 exSnapshots { exTrade0 with timestampMs := 1000 }
    (by decide) (by decide)).1

/-- C6: when the primary window of a trade is empty, the code locates the
market-feed snapshot nearest in time to the trade.  If that nearest
snapshot is within the 30 s fallback threshold, collection is re-run over
the widened window around it, clamped to the trade time plus or minus the
10 s secondary bound; if it is farther than 30 s, or no snapshot exists at
all, the collected window stays empty and the trade is merged unchanged,
with no market context, which is not an error. -/
theorem fallback_widening (w : Int) (es : List EventRecord) (trade : MergedTrade)
    (c : EventRecord) (d : Int)
    (hempty : primaryWindowEvents w trade.timestampMs es = []) :
    (closestSnapshot trade.timestampMs es = some (c, d) → d ≤ 30000 →
      collectWindowEvents w trade.timestampMs es
        = sortByT (es.filter fun e =>
            decide (e.src = Src.market_ws ∧
              max (c.t - w) (trade.timestampMs - 10000) ≤ e.t ∧
              e.t ≤ min (c.t + w) (trade.timestampMs + 10000)))) ∧
    (closestSnapshot trade.timestampMs es = some (c, d) → 30000 < d →
      collectWindowEvents w trade.timestampMs es = [] ∧
      attachMarketContext w es trade = trade) ∧
    (closestSnapshot trade.timestampMs es = none →
      collectWindowEvents w trade.timestampMs es = [] ∧
      attachMarketContext w es trade = trade) := by
  have hpe : (primaryWindowEvents w trade.timestampMs es).isEmpty = true := by
    rw [hempty]; rfl
  refine ⟨?_, ?_, ?_⟩
  · intro hc hd
    have hesne : es ≠ [] := by
      intro h
      subst h
      simp [closestSnapshot] at hc
    have hes : es.isEmpty = false := by
      cases es with
      | nil => exact absurd rfl hesne
      | cons a l => rfl
    simp only [collectWindowEvents, hpe, hes, Bool.not_false, Bool.and_self, if_true, hc]
    rw [if_pos hd]
  · intro hc hd
    have hesne : es ≠ [] := by
      intro h
      subst h
      simp [closestSnapshot] at hc
    have hes : es.isEmpty = false := by
      cases es with
      | nil => exact absurd rfl hesne
      | cons a l => rfl
    have hcol : collectWindowEvents w trade.timestampMs es = [] := by
      simp only [collectWindowEvents, hpe, hes, Bool.not_false, Bool.and_self, if_true, hc]
      rw [if_neg (by omega)]
    exact ⟨hcol, attachMarketContext_of_empty w es trade hcol⟩
  · intro hc
    have hcol : collectWindowEvents w trade.timestampMs es = [] := by
      by_cases hes : es = []
      · subst hes
        simp [collectWindowEvents, hempty]
      · have hes₁ : es.isEmpty = false := by
          cases es with
          | nil => exact absurd rfl hes
          | cons a l => rfl
        simp only [collectWindowEvents, hpe, hes₁, Bool.not_false, Bool.and_self, if_true, hc]
    exact ⟨hcol, attachMarketContext_of_empty w es trade hcol⟩

/-- Witness for C6: a trade at t = 0 whose only snapshot sits at t = 5000 —
outside the 3 s primary window, within the 30 s fallback. -/
theorem fallback_widening_witness :
    collectWindowEvents 3000 exTrade0.timestampMs exFallbackLog
      = sortByT (exFallbackLog.filter fun e =>
          decide (e.src = Src.market_ws ∧
            max ((exSnapshotAt 5000).t - 3000) (exTrade0.timestampMs - 10000) ≤ e.t ∧
            e.t ≤ min ((exSnapshotAt 5000).t + 3000) (exTrade0.timestampMs + 10000))) :=
  (fallback_widening 3000 exFallbackLog exTrade0 (exSnapshotAt 5000) 5000 (by decide)).1
    (by decide) (by decide)

set_option maxRecDepth 40000 in
/-- Counterexample to C7: a window that collects exactly 100 snapshots —
the cap itself — still retains the raw list (`<=` in the source), whereas
the claim says the list is dropped at or above the cap of 100. -/
theorem raw_cap_counterexample :
    (windowEventsOf 3000 exTrade50.timestampMs exManySnapshots).length
      = MAX_RAW_EVENTS_PER_TRADE ∧
    (attachMarketContext 3000 exManySnapshots exTrade50).marketEvents ≠ none := by
  decide

/-- C7 as amended: for every merged trade with a non-empty collected
window, the raw ordered snapshot list is retained exactly when its size is
at most the fixed cap of 100 (`<= MAX_RAW_EVENTS_PER_TRADE`), and dropped
— keeping only the aggregate summary — when its size strictly exceeds
the cap. -/
theorem raw_retention (w : Int) (es : List EventRecord) (trade : MergedTrade)
    (h : collectWindowEvents w trade.timestampMs es ≠ []) :
    (attachMarketContext w es trade).marketEvents
      = (if (windowEventsOf w trade.timestampMs es).length ≤ MAX_RAW_EVENTS_PER_TRADE
         then some ((windowEventsOf w trade.timestampMs es).map toMarketEventOut)
         else none) :=
  attachMarketContext_of_ne w es trade h

/-- Witness for the amended C7 at a one-snapshot window. -/
theorem raw_retention_witness :
    (attachMarketContext 3000 [exSnapshotAt 0] exTrade0).marketEvents
      = (if (windowEventsOf 3000 exTrade0.timestampMs [exSnapshotAt 0]).length
            ≤ MAX_RAW_EVENTS_PER_TRADE
         then some ((windowEventsOf 3000 exTrade0.timestampMs [exSnapshotAt 0]).map
            toMarketEventOut)
         else none) :=
  raw_retention 3000 [exSnapshotAt 0] exTrade0 (by decide)

/-! ## Lemmas about the reconnect backoff -/

/-- One close-handler update on a capped power-of-two delay. -/
theorem nextReconnectDelay_pow (j : Nat) :
    nextReconnectDelay (min (1000 * 2 ^ j) 30000) = min (1000 * 2 ^ (j + 1)) 30000 := by
  unfold nextReconnectDelay MAX_RECONNECT_DELAY_MS
  by_cases h : 1000 * 2 ^ j ≤ 30000
  · rw [min_eq_left h]
    have h₂ : 1000 * 2 ^ (j + 1) = 1000 * 2 ^ j * 2 := by ring
    rw [h₂]
  · push_neg at h
    have h₂ : (30000 : Nat) ≤ 1000 * 2 ^ (j + 1) := by
      have h₃ : (2 : Nat) ^ j ≤ 2 ^ (j + 1) := Nat.pow_le_pow_right (by omega) (by omega)
      omega
    rw [min_eq_right (le_of_lt h), min_eq_right h₂]
    omega

/-- Closed form of the observed delay sequence. -/
theorem reconnectDelays_formula (n : Nat) : ∀ j : Nat,
    reconnectDelays n (min (1000 * 2 ^ j) 30000)
      = (List.range n).map fun k => min (1000 * 2 ^ (j + k)) 30000 := by
  induction n with
  | zero => intro j; simp [reconnectDelays]
  | succ m ih =>
    intro j
    have htail : List.map (fun k => min (1000 * 2 ^ (j + 1 + k)) 30000) (List.range m)
        = List.map ((fun k => min (1000 * 2 ^ (j + k)) 30000) ∘ Nat.succ) (List.range m) := by
      refine List.map_congr_left ?_
      intro a _
      show min (1000 * 2 ^ (j + 1 + a)) 30000 = min (1000 * 2 ^ (j + (a + 1))) 30000
      have h : j + 1 + a = j + (a + 1) := by omega
      rw [h]
    rw [reconnectDelays, nextReconnectDelay_pow j, ih (j + 1), List.range_succ_eq_map,
      List.map_cons, List.map_map, ← htail]
    simp

/-- C8: for consecutive disconnects starting from the 1 s base delay, the
k-th observed reconnect delay is the doubling sequence capped at 30 s —
`min (1000 * 2 ^ k) 30000` — so the observed delays are 1, 2, 4, 8, 16,
30, 30, ... seconds, no delay ever exceeds the 30 s cap, and a successful
open resets the delay to the 1 s base. -/
theorem reconnect_backoff (n : Nat) :
    reconnectDelays n BASE_RECONNECT_DELAY_MS
      = (List.range n).map
          (fun k => min (BASE_RECONNECT_DELAY_MS * 2 ^ k) MAX_RECONNECT_DELAY_MS) ∧
    (∀ d ∈ reconnectDelays n BASE_RECONNECT_DELAY_MS, d ≤ MAX_RECONNECT_DELAY_MS) ∧
    (∀ d, openReconnectDelay d = BASE_RECONNECT_DELAY_MS) ∧
    reconnectDelays 7 BASE_RECONNECT_DELAY_MS
      = [1000, 2000, 4000, 8000, 16000, 30000, 30000] := by
  have hbase : BASE_RECONNECT_DELAY_MS = min (1000 * 2 ^ 0) 30000 := by decide
  have hform : reconnectDelays n BASE_RECONNECT_DELAY_MS
      = (List.range n).map fun k => min (1000 * 2 ^ k) 30000 := by
    rw [hbase, reconnectDelays_formula n 0]
    simp
  refine ⟨?_, ?_, fun d => rfl, by decide⟩
  · rw [hform]
    rfl
  · intro d hd
    rw [hform] at hd
    obtain ⟨k, -, hk⟩ := List.mem_map.mp hd
    rw [← hk]
    exact min_le_right _ _

/-- Witness for C8: the sixth observed delay sits at the cap. -/
theorem reconnect_backoff_witness :
    (30000 : Nat) ≤ MAX_RECONNECT_DELAY_MS :=
  (reconnect_backoff 7).2.1 30000 (by decide)

/-! ## Lemmas about the promotion scheduler -/

theorem lookupKey_eq_none {α : Type} (k : String) (m : List (String × α))
    (h : k ∉ m.map Prod.fst) : lookupKey k m = none := by
  induction m with
  | nil => rfl
  | cons p rest ih =>
    obtain ⟨k₁, v⟩ := p
    simp only [List.map_cons, List.mem_cons] at h
    push_neg at h
    simp only [lookupKey]
    rw [if_neg (fun he => h.1 he.symm)]
    exact ih h.2

theorem not_mem_keys_removeKey {α : Type} (k : String) (m : List (String × α))
    (hnd : (m.map Prod.fst).Nodup) : k ∉ (removeKey k m).map Prod.fst := by
  induction m with
  | nil => simp [removeKey]
  | cons p rest ih =>
    obtain ⟨k₁, v⟩ := p
    simp only [List.map_cons] at hnd
    obtain ⟨hhead, htail⟩ := List.nodup_cons.mp hnd
    simp only [removeKey]
    by_cases h : k₁ = k
    · rw [if_pos h]
      subst h
      exact fun hmem => hhead hmem
    · rw [if_neg h]
      simp only [List.map_cons, List.mem_cons]
      push_neg
      exact ⟨fun he => h he.symm, ih htail⟩

/-- Flushing a slug's buffer never touches the activity tracking. -/
theorem flushSlugBuffer_slugLastActivity (slug : String) (st : SchedulerState) :
    (flushSlugBuffer slug st).slugLastActivity = st.slugLastActivity := by
  unfold flushSlugBuffer
  cases lookupKey slug st.slugEventBuffers with
  | none => rfl
  | some buffer =>
    by_cases h : buffer.isEmpty
    · simp [h]
    · simp [h]

/-- Only tracked slugs are ever selected by the inactivity check. -/
theorem mem_keys_of_mem_inactiveSlugsOf (now : Int) (st : SchedulerState) (s : String)
    (h : s ∈ inactiveSlugsOf now st) : s ∈ st.slugLastActivity.map Prod.fst := by
  unfold inactiveSlugsOf at h
  exact (List.mem_filter.mp h).1

/-- The inactivity selection reads only the activity tracking. -/
theorem inactiveSlugsOf_congr (now : Int) (st₂ st : SchedulerState)
    (h : st₂.slugLastActivity = st.slugLastActivity) :
    inactiveSlugsOf now st₂ = inactiveSlugsOf now st := by
  simp [inactiveSlugsOf, h]

/-- C9: promoting a market deletes the local artifact file only when the
remote upload reports success, and then drops the market from the tracked
set, so no later inactivity check can select (and re-upload) it; when the
upload reports failure — or remote storage is unconfigured, or the file is
missing or empty — the local file (post-flush) and the tracking entry are
retained unchanged, so the same inactivity check selects the market again
on the next cycle.  The hypothesis says the tracked map holds each slug at
most once, as a JS `Map` does. -/
theorem promotion_upload_safety (cfg : Bool) (ok : String → Bool) (slug : String)
    (st : SchedulerState)
    (hnd : (st.slugLastActivity.map Prod.fst).Nodup) :
    ((uploadSlugFileToR2 cfg ok slug st).1 = true →
      ok slug = true ∧ cfg = true ∧
      (uploadSlugFileToR2 cfg ok slug st).2.localFiles
        = removeKey slug (flushSlugBuffer slug st).localFiles ∧
      (uploadSlugFileToR2 cfg ok slug st).2.slugLastActivity
        = removeKey slug st.slugLastActivity ∧
      (∀ now, slug ∉ inactiveSlugsOf now (uploadSlugFileToR2 cfg ok slug st).2)) ∧
    ((uploadSlugFileToR2 cfg ok slug st).1 = false →
      (uploadSlugFileToR2 cfg ok slug st).2.localFiles = (flushSlugBuffer slug st).localFiles ∧
      (uploadSlugFileToR2 cfg ok slug st).2.slugLastActivity = st.slugLastActivity ∧
      (∀ now, inactiveSlugsOf now (uploadSlugFileToR2 cfg ok slug st).2
          = inactiveSlugsOf now st)) := by
  have htr : (flushSlugBuffer slug st).slugLastActivity = st.slugLastActivity :=
    flushSlugBuffer_slugLastActivity slug st
  unfold uploadSlugFileToR2
  cases hf : lookupKey slug (flushSlugBuffer slug st).localFiles with
  | none =>
    simp only [hf]
    refine ⟨fun h => by simp at h, fun _ => ⟨by simp, by simp [htr], fun now => ?_⟩⟩
    exact inactiveSlugsOf_congr now _ st htr
  | some content =>
    simp only [hf]
    by_cases hc : content.length = 0
    · rw [if_pos hc]
      refine ⟨fun h => by simp at h, fun _ => ⟨by simp, by simp [htr], fun now => ?_⟩⟩
      exact inactiveSlugsOf_congr now _ st htr
    · rw [if_neg hc]
      by_cases hcfg : cfg = true
      · rw [if_pos hcfg]
        by_cases hok : ok slug = true
        · rw [if_pos hok]
          constructor
          · intro _
            refine ⟨hok, hcfg, by simp, by simp [htr], ?_⟩
            intro now hmem
            have hkeys := mem_keys_of_mem_inactiveSlugsOf now _ slug hmem
            simp only at hkeys
            rw [htr] at hkeys
            exact not_mem_keys_removeKey slug st.slugLastActivity hnd hkeys
          · intro h
            simp at h
        · rw [if_neg hok]
          refine ⟨fun h => by simp at h, fun _ => ⟨by simp, by simp [htr], fun now => ?_⟩⟩
          exact inactiveSlugsOf_congr now _ st htr
      · rw [if_neg hcfg]
        refine ⟨fun h => by simp at h, fun _ => ⟨by simp, by simp [htr], fun now => ?_⟩⟩
        exact inactiveSlugsOf_congr now _ st htr

/-- Witness for C9: one inactive market with a buffered event and one
active market, with a succeeding upload — the promoted market leaves the
tracked set. -/
theorem promotion_upload_safety_witness :
    (uploadSlugFileToR2 true (fun _ => true) "old" exSchedulerState).2.slugLastActivity
      = removeKey "old" exSchedulerState.slugLastActivity :=
  ((promotion_upload_safety true (fun _ => true) "old" exSchedulerState (by decide)).1
    (by decide)).2.2.2.1

end DataGABA
